import Mathlib

/-!
Verification of the BRISQUE no-reference image-quality module
(`modules/quality/src/qualitybrisque.cpp`) against its natural-language
specification.

The C++ code computes with IEEE doubles; we embed its arithmetic over the
real numbers, with an explicit NaN value (`DR := Option ℝ`, `none` = NaN)
wherever the program can reach an IEEE 0/0.  Floating-point rounding is
idealized away: every double expression is modelled by the exact real it
approximates.  Matrices (`cv::Mat` of doubles) are modelled as a size
together with a total entry function; all OpenCV element-wise operations
read only in-range entries.
-/

open scoped Classical

namespace Brisque

/-- Scalar model of an IEEE double: `none` models NaN, `some x` the exact
real value.  Infinities never arise in the reachable computations of this
program (every division with zero denominator also has a zero numerator,
which IEEE maps to NaN), so `div` sends any zero denominator to `none`. -/
abbrev DR := Option ℝ

/-- Addition; NaN propagates, as in IEEE arithmetic. -/
noncomputable def DR.add : DR → DR → DR
  | some a, some b => some (a + b)
  | _, _ => none

/-- Subtraction; NaN propagates. -/
noncomputable def DR.sub : DR → DR → DR
  | some a, some b => some (a - b)
  | _, _ => none

/-- Multiplication; NaN propagates. -/
noncomputable def DR.mul : DR → DR → DR
  | some a, some b => some (a * b)
  | _, _ => none

/-- Division; NaN propagates and a zero denominator yields NaN
(in this program a zero denominator always comes with a zero numerator). -/
noncomputable def DR.div : DR → DR → DR
  | some a, some b => if b = 0 then none else some (a / b)
  | _, _ => none

/-- Model of `std::pow(x, 0.5)` on scalars: square root, NaN for negative
arguments and for NaN. -/
noncomputable def DR.powHalf : DR → DR
  | some a => if a < 0 then none else some (Real.sqrt a)
  | none => none

/-- Model of `std::abs` on doubles; NaN propagates. -/
noncomputable def DR.dabs : DR → DR
  | some a => some |a|
  | none => none

/-- Model of the IEEE comparison `a > b`: false whenever either side is
NaN. -/
def DR.gtP : DR → DR → Prop
  | some a, some b => b < a
  | _, _ => False

/-- A real-valued image buffer (`cv::Mat` of doubles): a size plus a total
entry function; only entries with indices below `rows`/`cols` are ever read
by the modelled operations. -/
structure Mat where
  rows : ℕ
  cols : ℕ
  entry : ℕ → ℕ → ℝ

/-- Index set of the in-range cells of a matrix, mirroring the row/column
double loop of the source. -/
def cellIdx (m : Mat) : Finset (ℕ × ℕ) := Finset.range m.rows ×ˢ Finset.range m.cols

/-- Number of strictly positive entries (`poscount` accumulator of
`AGGDfit`). -/
noncomputable def poscount (m : Mat) : ℕ :=
  ((cellIdx m).filter fun p => 0 < m.entry p.1 p.2).card

/-- Number of strictly negative entries (`negcount` accumulator of
`AGGDfit`). -/
noncomputable def negcount (m : Mat) : ℕ :=
  ((cellIdx m).filter fun p => m.entry p.1 p.2 < 0).card

/-- Sum of squares of the strictly positive entries (`possqsum`). -/
noncomputable def possqsum (m : Mat) : ℝ :=
  ∑ p ∈ (cellIdx m).filter (fun p => 0 < m.entry p.1 p.2), (m.entry p.1 p.2) ^ 2

/-- Sum of squares of the strictly negative entries (`negsqsum`). -/
noncomputable def negsqsum (m : Mat) : ℝ :=
  ∑ p ∈ (cellIdx m).filter (fun p => m.entry p.1 p.2 < 0), (m.entry p.1 p.2) ^ 2

/-- Sum of absolute values over the nonzero entries (`abssum`): the source
adds `pt` on the positive branch and subtracts it on the negative branch. -/
noncomputable def abssum (m : Mat) : ℝ :=
  (∑ p ∈ (cellIdx m).filter (fun p => 0 < m.entry p.1 p.2), m.entry p.1 p.2)
    - ∑ p ∈ (cellIdx m).filter (fun p => m.entry p.1 p.2 < 0), m.entry p.1 p.2

/-- Total number of cells, `totalcount = cols * rows` as in the source. -/
def totalcount (m : Mat) : ℕ := m.cols * m.rows

/-- Left scale of the AGGD fit: `pow(negsqsum / negcount, 0.5)`; NaN when
`negcount = 0` (a 0/0). -/
noncomputable def lsigmaOf (m : Mat) : DR :=
  DR.powHalf (DR.div (some (negsqsum m)) (some ((negcount m : ℝ))))

/-- Right scale of the AGGD fit: `pow(possqsum / poscount, 0.5)`. -/
noncomputable def rsigmaOf (m : Mat) : DR :=
  DR.powHalf (DR.div (some (possqsum m)) (some ((poscount m : ℝ))))

/-- The ratio `gammahat = lsigma_best / rsigma_best` from the source. -/
noncomputable def gammahatOf (m : Mat) : DR := DR.div (lsigmaOf m) (rsigmaOf m)

/-- The moment ratio
`rhat = pow(abssum/totalcount, 2) / ((negsqsum + possqsum)/totalcount)`. -/
noncomputable def rhatOf (m : Mat) : DR :=
  let aN := DR.div (some (abssum m)) (some ((totalcount m : ℝ)))
  DR.div (DR.mul aN aN)
    (DR.div (some (negsqsum m + possqsum m)) (some ((totalcount m : ℝ))))

/-- The normalized ratio
`rhatnorm = rhat * (pow(gammahat,3)+1) * (gammahat+1) / pow(pow(gammahat,2)+1, 2)`. -/
noncomputable def rhatnormOf (m : Mat) : DR :=
  let g := gammahatOf m
  DR.div
    (DR.mul (DR.mul (rhatOf m) (DR.add (DR.mul (DR.mul g g) g) (some 1)))
      (DR.add g (some 1)))
    (DR.mul (DR.add (DR.mul g g) (some 1)) (DR.add (DR.mul g g) (some 1)))

/-- The k-th candidate shape parameter of the gamma scan: the source loop
`for (gam = 0.2; gam < 10; gam += 0.001)` visits `0.2 + k * 0.001`. -/
noncomputable def gamCand (k : ℕ) : ℝ := 1 / 5 + (k : ℝ) * (1 / 1000)

/-- The theoretical moment ratio at shape `g`:
`tgamma(2/g)*tgamma(2/g) / (tgamma(1/g)*tgamma(3/g))`. -/
noncomputable def rGam (g : ℝ) : ℝ :=
  Real.Gamma (2 / g) * Real.Gamma (2 / g) / (Real.Gamma (1 / g) * Real.Gamma (3 / g))

/-- The difference sequence of the scan: `diff = abs(r_gam - rhatnorm)` at
the k-th candidate. -/
noncomputable def diffSeq (rhatnorm : DR) (k : ℕ) : DR :=
  DR.dabs (DR.sub (some (rGam (gamCand k))) rhatnorm)

/-- Number of candidates visited by the loop guard `gam < 10` in exact
arithmetic: exactly those `k` with `0.2 + k * 0.001 < 10`, i.e. `k < 9800`
(see `gamCand_lt_ten_iff`). -/
def numCandidates : ℕ := 9800

/-- The scan loop of `AGGDfit`, fuelled by the remaining candidate count:
state is `(fuel, k, prevgamma, prevdiff)`; the body breaks when
`diff > prevdiff` and otherwise records the candidate and its diff. -/
noncomputable def scanLoop (d : ℕ → DR) : ℕ → ℕ → ℝ → DR → ℝ
  | 0, _, prevgamma, _ => prevgamma
  | n + 1, k, prevgamma, prevdiff =>
    if DR.gtP (d k) prevdiff then prevgamma
    else scanLoop d n (k + 1) (gamCand k) (d k)

/-- The full gamma search: `prevgamma = 0`, `prevdiff = 1e10`, then the
scan loop over all candidates below 10. -/
noncomputable def scanGamma (d : ℕ → DR) : ℝ :=
  scanLoop d numCandidates 0 0 (some ((10 : ℝ) ^ 10))

/-- Result triple of `AGGDfit` (the function also returns a clone of its
input matrix, which carries no information and is omitted). -/
structure AGGDResult where
  lsigma : DR
  rsigma : DR
  gammaBest : ℝ

/-- The AGGD parameter fit `AGGDfit` from the source: one pass of
sign-partitioned statistics, the closed-form ratios, then the gamma scan. -/
noncomputable def AGGDfit (m : Mat) : AGGDResult :=
  { lsigma := lsigmaOf m
    rsigma := rsigmaOf m
    gammaBest := scanGamma (diffSeq (rhatnormOf m)) }

/-- The least index `j` in `[k, k + n)` satisfying `P`, or `k + n` when
there is none. -/
noncomputable def capLeast (P : ℕ → Prop) (k n : ℕ) : ℕ :=
  if h : ∃ j, k ≤ j ∧ j < k + n ∧ P j then Nat.find h else k + n

/-- Modelled from the spec (§4.4 step 4): the search "stops scanning as soon
as diff increases relative to the previous step" and "returns the last
candidate whose diff did not increase" — the first local minimum of the
scanned diff sequence: the candidate immediately before the first strict
increase, or the last candidate `0.2 + 9799·0.001` when the diff never
increases. -/
noncomputable def specGammaSearch (d : ℕ → DR) : ℝ :=
  gamCand (capLeast (fun j => DR.gtP (d (j + 1)) (d j)) 0 (numCandidates - 1))

/-- The 2×2 coefficient field `[[-2,-1],[1,2]]` of the spec's closed-form
check (§8). -/
noncomputable def testField : Mat :=
  { rows := 2
    cols := 2
    entry := fun i j =>
      if i = 0 then (if j = 0 then -2 else -1) else (if j = 0 then 1 else 2) }

/-- Element-wise product, `cv::multiply`; dimensions of the first operand. -/
noncomputable def matMul (a b : Mat) : Mat :=
  { rows := a.rows, cols := a.cols, entry := fun i j => a.entry i j * b.entry i j }

/-- Element-wise difference, `cv::subtract`. -/
noncomputable def matSub (a b : Mat) : Mat :=
  { rows := a.rows, cols := a.cols, entry := fun i j => a.entry i j - b.entry i j }

/-- Element-wise quotient, `cv::divide`; in this pipeline the divisor is
`sigma ≥ 1/255 > 0`, so real division is faithful. -/
noncomputable def matDivM (a b : Mat) : Mat :=
  { rows := a.rows, cols := a.cols, entry := fun i j => a.entry i j / b.entry i j }

/-- Adding a scalar to every element, `cv::add` with a `Scalar`. -/
noncomputable def matAddC (a : Mat) (c : ℝ) : Mat :=
  { rows := a.rows, cols := a.cols, entry := fun i j => a.entry i j + c }

/-- Applying a scalar function to every element. -/
noncomputable def matMap (f : ℝ → ℝ) (a : Mat) : Mat :=
  { rows := a.rows, cols := a.cols, entry := fun i j => f (a.entry i j) }

/-- Scaling every element, `convertTo` with `rtype = CV_64FC1` and a scale
factor. -/
noncomputable def matScale (c : ℝ) (a : Mat) : Mat := matMap (fun x => c * x) a

/-- The shift offsets of the pairwise-orientation loop, in source order:
horizontal (0,1), vertical (1,0), main diagonal (1,1), anti-diagonal
(-1,1). -/
def shifts : List (ℤ × ℤ) := [(0, 1), (1, 0), (1, 1), (-1, 1)]

/-- The shifted copy built by the pairwise loop: same dimensions; cell
(i,j) holds the source value at (i+di, j+dj) when that offset is in
bounds, and 0 otherwise. -/
noncomputable def shiftField (st : Mat) (di dj : ℤ) : Mat :=
  { rows := st.rows
    cols := st.cols
    entry := fun i j =>
      if 0 ≤ (i : ℤ) + di ∧ (i : ℤ) + di < (st.rows : ℤ)
          ∧ 0 ≤ (j : ℤ) + dj ∧ (j : ℤ) + dj < (st.cols : ℤ)
        then st.entry ((i : ℤ) + di).toNat ((j : ℤ) + dj).toNat
        else 0 }

/-- The pairwise-product field: element-wise product of the MSCN field with
its shifted copy. -/
noncomputable def pairProduct (st : Mat) (di dj : ℤ) : Mat :=
  matMul st (shiftField st di dj)

/-- External OpenCV collaborators (not part of this repository's sources):
`resize` is `cv::resize` with INTER_CUBIC to a given `(cols, rows)` target,
`blur` is `cv::GaussianBlur` with a 7×7 kernel and sigma 1.166.  Theorems
assume only documented properties of them (dimensions; normalized
nonnegative kernel weights), stated as explicit hypotheses. -/
structure Collab where
  resize : ℕ → ℕ → Mat → Mat
  blur : Mat → Mat

/-- A weighted smoothing operator: cell (i,j) of the output is the
`W (i,j)`-weighted sum of the source cells.  `cv::GaussianBlur` has this
form, with border handling folded into the per-cell weights. -/
noncomputable def blurW (W : ℕ × ℕ → ℕ × ℕ → ℝ) (m : Mat) : Mat :=
  { rows := m.rows
    cols := m.cols
    entry := fun i j => ∑ p ∈ cellIdx m, W (i, j) p * m.entry p.1 p.2 }

/-- The MSCN block of ComputeBrisqueFeature (lines 195–214): local mean
`mu` by Gaussian blur, `mu_sq = pow(mu, 2)`, local second moment by
blurring the squared image, `subtract` then `pow(·, 0.5)` — which OpenCV
evaluates on the absolute value for fractional powers, modelled as
`sqrt |·|` — then `+ 1/255`, and finally `(image − mu) / sigma`. -/
noncomputable def mscnField (C : Collab) (imdist : Mat) : Mat :=
  let mu := C.blur imdist
  let mu_sq := matMap (fun x => x * x) mu
  let sigma0 := C.blur (matMul imdist imdist)
  let sigma1 := matSub sigma0 mu_sq
  let sigma := matAddC (matMap (fun x => Real.sqrt |x|) sigma1) (1 / 255)
  matDivM (matSub imdist mu) sigma

/-- The per-scale working buffer (lines 190–194): resize the 8-bit
grayscale buffer to `(cols / 2^(s-1), rows / 2^(s-1))` (C int truncation =
floor division) with INTER_CUBIC, then `convertTo(CV_64FC1, 1.0/255.0)`. -/
noncomputable def scaledInput (C : Collab) (bw : Mat) (s : ℕ) : Mat :=
  matScale (1 / 255) (C.resize (bw.cols / 2 ^ (s - 1)) (bw.rows / 2 ^ (s - 1)) bw)

/-- A decoded input image: 8-bit samples for the three BGR channels. -/
structure ColorImage where
  rows : ℕ
  cols : ℕ
  chanB : ℕ → ℕ → ℕ
  chanG : ℕ → ℕ → ℕ
  chanR : ℕ → ℕ → ℕ

/-- Modelled from OpenCV's COLOR_BGR2GRAY (an external collaborator): luma
`Y = 0.299·R + 0.587·G + 0.114·B`, rounded to the nearest integer for the
8-bit output. -/
noncomputable def luma8 (b g r : ℕ) : ℤ :=
  round ((299 / 1000 : ℝ) * r + (587 / 1000) * g + (114 / 1000) * b)

/-- Saturate-cast to the 8-bit range. -/
def sat8 (z : ℤ) : ℤ := max 0 (min 255 z)

/-- The `cvtColor(orig, orig_bw_int, COLOR_BGR2GRAY)` call of line 180,
applied unconditionally to the input (the source has no single-channel
branch). -/
noncomputable def cvtColorBGR2GRAY (img : ColorImage) : Mat :=
  { rows := img.rows
    cols := img.cols
    entry := fun i j =>
      ((sat8 (luma8 (img.chanB i j) (img.chanG i j) (img.chanR i j)) : ℤ) : ℝ) }

/-- The `orig_bw_int.convertTo(orig_bw, 1.0 / 255)` call of line 183: the
second argument is the integer `rtype` parameter of `convertTo`, so the
double `1.0/255` truncates to `0 = CV_8U` and the scale keeps its default
`alpha = 1`: a saturate-cast to 8 bits of `round(1·x + 0)`, not a division
by 255. -/
noncomputable def convertTo8U (m : Mat) : Mat :=
  { rows := m.rows
    cols := m.cols
    entry := fun i j => ((sat8 (round (m.entry i j)) : ℤ) : ℝ) }

/-- The grayscale stage of ComputeBrisqueFeature (lines 178–186): an
unconditional BGR-to-gray conversion followed by the mistyped `convertTo`;
it yields an 8-bit buffer with values in [0, 255]. -/
noncomputable def grayStage (img : ColorImage) : Mat :=
  convertTo8U (cvtColorBGR2GRAY img)

/-- The MSCN field the pipeline computes at scale `s`. -/
noncomputable def scaleMSCN (C : Collab) (img : ColorImage) (s : ℕ) : Mat :=
  mscnField C (scaledInput C (grayStage img) s)

/-- The four numbers the pairwise loop pushes for one orientation (lines
263–272): `gamma_best`, `meanparam`, `pow(lsigma,2)`, `pow(rsigma,2)`. -/
noncomputable def orientFeatures (st : Mat) (sh : ℤ × ℤ) : List DR :=
  let f := AGGDfit (pairProduct st sh.1 sh.2)
  let g := f.gammaBest
  let cst := Real.sqrt (Real.Gamma (1 / g)) / Real.sqrt (Real.Gamma (3 / g))
  let meanparam := DR.mul (DR.mul (DR.sub f.rsigma f.lsigma)
      (some (Real.Gamma (2 / g) / Real.Gamma (1 / g)))) (some cst)
  [some g, meanparam, DR.mul f.lsigma f.lsigma, DR.mul f.rsigma f.rsigma]

/-- One iteration of the scale loop, in source push order: the MSCN fit's
`gamma_best`, then `(lsigma² + rsigma²)/2`, then the four orientation
blocks appended by the inner loop. -/
noncomputable def scalePass (C : Collab) (fv : List DR) (imdist : Mat) : List DR :=
  let st := mscnField C imdist
  let f := AGGDfit st
  let fv2 := fv ++ [some f.gammaBest,
    DR.div (DR.add (DR.mul f.lsigma f.lsigma) (DR.mul f.rsigma f.rsigma)) (some 2)]
  shifts.foldl (fun acc sh => acc ++ orientFeatures st sh) fv2

/-- ComputeBrisqueFeature: the grayscale stage once, then the scale loop
for `itr_scale = 1, 2`, accumulating `featurevector` by `push_back`. -/
noncomputable def ComputeBrisqueFeature (C : Collab) (img : ColorImage) : List DR :=
  (List.range 2).foldl
    (fun fv s0 => scalePass C fv (scaledInput C (grayStage img) (s0 + 1))) []

/-- Modelled from the spec (§4.6 and C1's wording): scale-major assembly —
for each of scales 1 and 2, first the MSCN fit's gamma then
`(leftScale² + rightScale²)/2`, followed by, for each orientation in the
order horizontal, vertical, main-diagonal, anti-diagonal, the four numbers
gamma, meanParam, leftScale², rightScale². -/
noncomputable def specFeatureVector (C : Collab) (img : ColorImage) : List DR :=
  ([1, 2] : List ℕ).bind (fun s =>
    let st := scaleMSCN C img s
    let f := AGGDfit st
    [some f.gammaBest,
      DR.div (DR.add (DR.mul f.lsigma f.lsigma) (DR.mul f.rsigma f.rsigma)) (some 2)]
    ++ shifts.bind (fun sh => orientFeatures st sh))

/-- Modelled from the spec (§4.2, §7): the inputs the claim says must be
rejected — some scale's resized dimensions `floor(w/2^(s-1)) ×
floor(h/2^(s-1))` fall below 7 in either axis. -/
def sizeBelowMin (w h : ℕ) : Bool :=
  decide (w / 2 ^ 0 < 7 ∨ h / 2 ^ 0 < 7 ∨ w / 2 ^ 1 < 7 ∨ h / 2 ^ 1 < 7)

/-- A concrete instantiation of the external collaborators, used in closed
statements: resize reads the clamped source cell and blur is the identity;
both satisfy the collaborator contracts assumed by the theorems. -/
noncomputable def idCollab : Collab :=
  { resize := fun w h m =>
      { rows := h, cols := w
        entry := fun i j => m.entry (min i (m.rows - 1)) (min j (m.cols - 1)) }
    blur := fun m => m }

/-- An all-black 6×6 input: both dimensions are below 7 already at scale 1. -/
noncomputable def img6x6 : ColorImage :=
  { rows := 6, cols := 6
    chanB := fun _ _ => 0, chanG := fun _ _ => 0, chanR := fun _ _ => 0 }

/-- An all-black 8-wide, 3-tall input: height below 7 at scale 1. -/
noncomputable def img8x3 : ColorImage :=
  { rows := 3, cols := 8
    chanB := fun _ _ => 0, chanG := fun _ _ => 0, chanR := fun _ _ => 0 }

/-- The all-white 1×1 input. -/
noncomputable def whiteImage : ColorImage :=
  { rows := 1, cols := 1
    chanB := fun _ _ => 255, chanG := fun _ _ => 255, chanR := fun _ _ => 255 }

/-- Decision logic of `brisque_svm_data::load_range_data` (lines 58–77):
the only failure path is `fopen` returning NULL (file absent).  The two
header `fgets` reads and the 36 `fscanf` reads are performed but their
results are never checked.  `none` models an absent file; `some nums` a
present file whose data lines parse to the number stream `nums`. -/
def load_range_data (file : Option (List ℚ)) : Bool :=
  match file with
  | none => false
  | some _ => true

/-- The (min, max) pair the loader stores for feature `i` when the file
has enough numbers: the 2nd and 3rd numbers of the i-th data triple (the
1st is an unused index). -/
def loadedRanges (nums : List ℚ) (i : ℕ) : ℚ × ℚ :=
  (nums.getD (3 * i + 1) 0, nums.getD (3 * i + 2) 0)

/-- The constructor `brisque_svm_data` (lines 37–45): loads the model,
then the range data, raising `StsParseError` when either load fails, all
before any image is processed. -/
def brisque_svm_data_ctor (modelOk : Bool) (rangeFile : Option (List ℚ)) :
    Except String Unit :=
  if modelOk = false then Except.error "Error loading BRISQUE model file"
  else if load_range_data rangeFile = false then Except.error "Invalid range data file"
  else Except.ok ()

/-- The hardcoded table `min_` of computescore (line 283), idealized to
exact decimals. -/
noncomputable def hardMin : List ℝ :=
  [0.336999, 0.019667, 0.230000, -0.125959, 0.000167, 0.000616, 0.231000, -0.125873,
   0.000165, 0.000600, 0.241000, -0.128814, 0.000179, 0.000386, 0.243000, -0.133080,
   0.000182, 0.000421, 0.436998, 0.016929, 0.247000, -0.200231, 0.000104, 0.000834,
   0.257000, -0.200017, 0.000112, 0.000876, 0.257000, -0.155072, 0.000112, 0.000356,
   0.258000, -0.154374, 0.000117, 0.000351]

/-- The hardcoded table `max_` of computescore (line 284). -/
noncomputable def hardMax : List ℝ :=
  [9.999411, 0.807472, 1.644021, 0.202917, 0.712384, 0.468672, 1.644021, 0.169548,
   0.713132, 0.467896, 1.553016, 0.101368, 0.687324, 0.533087, 1.554016, 0.101000,
   0.689177, 0.533133, 3.639918, 0.800955, 1.096995, 0.175286, 0.755547, 0.399270,
   1.095995, 0.155928, 0.751488, 0.402398, 1.041992, 0.093209, 0.623516, 0.532925,
   1.042992, 0.093714, 0.621958, 0.534484]

/-- The value computescore stores in the i-th SVM node (line 312):
`x[i].value = -1 + (2.0/(max - min) * (brisqueFeatures[i] - min))` with
`min` and `max` taken from the hardcoded tables — the range data loaded at
construction is not consulted (see the TODO at line 280). -/
noncomputable def svmNodeValue (features : List DR) (i : ℕ) : DR :=
  DR.add (some (-1))
    (DR.mul (some (2 / (hardMax.getD i 0 - hardMin.getD i 0)))
      (DR.sub (features.getD i none) (some (hardMin.getD i 0))))

/-- Modelled from the spec (§6, C2's wording): the value the claim says is
passed to the predictor — `-1 + 2·(feature_i − min_i)/(max_i − min_i)`
with `(min_i, max_i)` the i-th pair read from the range file supplied at
construction. -/
noncomputable def specScaledFeature (nums : List ℚ) (features : List DR) (i : ℕ) : DR :=
  DR.add (some (-1))
    (DR.div (DR.mul (some 2) (DR.sub (features.getD i none)
        (some ((loadedRanges nums i).1 : ℝ))))
      (some (((loadedRanges nums i).2 : ℝ) - ((loadedRanges nums i).1 : ℝ))))

/-- A syntactically well-formed range file whose 36 data lines are
`i 0 1`: every loaded pair is (0, 1). -/
def rangeFileZeroOne : List ℚ :=
  (List.range 36).bind (fun i => [(i : ℚ), 0, 1])

/-- The all-ones weight function: a legitimate mass-1 kernel for a 1×1
matrix. -/
noncomputable def unitW : ℕ × ℕ → ℕ × ℕ → ℝ := fun _ _ => 1

/-- A 1×1 all-zero matrix. -/
noncomputable def mat1x1 : Mat := { rows := 1, cols := 1, entry := fun _ _ => 0 }

/-- Collaborators whose blur is the weighted smoother with the all-ones
kernel. -/
noncomputable def w1Collab : Collab :=
  { resize := fun w h m =>
      { rows := h, cols := w
        entry := fun i j => m.entry (min i (m.rows - 1)) (min j (m.cols - 1)) }
    blur := blurW unitW }

/-- Contract satisfied by `cv::GaussianBlur` (normalized kernel): a matrix
constant on its cells blurs to the same constant on those cells. -/
def blurConst (C : Collab) : Prop :=
  ∀ m c, (∀ i j, i < m.rows → j < m.cols → m.entry i j = c) →
    ∀ i j, i < m.rows → j < m.cols → (C.blur m).entry i j = c

/-- Contract satisfied by `cv::resize`: the output has the requested
`(cols, rows)` dimensions. -/
def resizeDims (C : Collab) : Prop :=
  ∀ w h m, (C.resize w h m).rows = h ∧ (C.resize w h m).cols = w

/-- Contract satisfied by `cv::resize` (interpolation weights of total
mass 1): a nonempty matrix constant on its cells resizes to the same
constant. -/
def resizeConst (C : Collab) : Prop :=
  ∀ w h m c, 0 < m.rows → 0 < m.cols →
    (∀ i j, i < m.rows → j < m.cols → m.entry i j = c) →
    ∀ i j, i < h → j < w → (C.resize w h m).entry i j = c

/-- The 18 numbers one scale contributes on a uniform input: each fit's
gamma is the last scanned candidate `0.2 + 9799·0.001`, and every
scale-derived number — `(lsigma²+rsigma²)/2`, `meanparam`, `lsigma²`,
`rsigma²` — is NaN. -/
noncomputable def nanFeatureBlock : List DR :=
  [some (gamCand (numCandidates - 1)), none]
  ++ [some (gamCand (numCandidates - 1)), none, none, none]
  ++ [some (gamCand (numCandidates - 1)), none, none, none]
  ++ [some (gamCand (numCandidates - 1)), none, none, none]
  ++ [some (gamCand (numCandidates - 1)), none, none, none]

/-- A uniform 2×2 image with 8-bit value 7 in every channel. -/
noncomputable def greyImage2x2 : ColorImage :=
  { rows := 2, cols := 2
    chanB := fun _ _ => 7, chanG := fun _ _ => 7, chanR := fun _ _ => 7 }

theorem DR.gtP_none_left (b : DR) : ¬ gtP none b := by
  cases b <;> simp [gtP]

theorem DR.gtP_some (a b : ℝ) : gtP (some a) (some b) ↔ b < a := Iff.rfl

theorem DR.mul_eq_some {a b : DR} {c : ℝ} (h : mul a b = some c) :
    ∃ x y, a = some x ∧ b = some y ∧ c = x * y := by
  cases a with
  | none => simp [mul] at h
  | some x =>
    cases b with
    | none => simp [mul] at h
    | some y => exact ⟨x, y, rfl, rfl, by simpa [mul] using h.symm⟩

theorem DR.add_eq_some {a b : DR} {c : ℝ} (h : add a b = some c) :
    ∃ x y, a = some x ∧ b = some y ∧ c = x + y := by
  cases a with
  | none => simp [add] at h
  | some x =>
    cases b with
    | none => simp [add] at h
    | some y => exact ⟨x, y, rfl, rfl, by simpa [add] using h.symm⟩

theorem DR.div_eq_some {a b : DR} {c : ℝ} (h : div a b = some c) :
    ∃ x y, a = some x ∧ b = some y ∧ y ≠ 0 ∧ c = x / y := by
  cases a with
  | none => simp [div] at h
  | some x =>
    cases b with
    | none => simp [div] at h
    | some y =>
      by_cases hy : y = 0
      · simp [div, hy] at h
      · exact ⟨x, y, rfl, rfl, hy, by simp [div, hy] at h; exact h.symm⟩

theorem DR.powHalf_eq_some {a : DR} {c : ℝ} (h : powHalf a = some c) :
    ∃ x, a = some x ∧ ¬ x < 0 ∧ c = Real.sqrt x := by
  cases a with
  | none => simp [powHalf] at h
  | some x =>
    by_cases hx : x < 0
    · simp [powHalf, hx] at h
    · exact ⟨x, rfl, hx, by simp [powHalf, hx] at h; exact h.symm⟩

/-- The fuel `numCandidates` is exactly the set of indices passing the
source loop guard `gam < 10`. -/
theorem gamCand_lt_ten_iff (k : ℕ) : gamCand k < 10 ↔ k < numCandidates := by
  unfold gamCand numCandidates
  constructor
  · intro h
    by_contra hk
    push_neg at hk
    have hk9 : (9800 : ℝ) ≤ (k : ℝ) := by exact_mod_cast hk
    nlinarith
  · intro h
    have hk9 : (k : ℝ) ≤ 9799 := by exact_mod_cast Nat.lt_succ_iff.mp h
    nlinarith

/-- Unfolding lemma: with fuel left, the loop breaks and returns the
previous candidate as soon as `diff > prevdiff`. -/
theorem scanLoop_break (d : ℕ → DR) (n k : ℕ) (pg : ℝ) (pd : DR)
    (h : DR.gtP (d k) pd) : scanLoop d (n + 1) k pg pd = pg := by
  simp [scanLoop, h]

/-- Unfolding lemma: with fuel left and no break, the loop records the
current candidate and its diff and continues. -/
theorem scanLoop_step (d : ℕ → DR) (n k : ℕ) (pg : ℝ) (pd : DR)
    (h : ¬ DR.gtP (d k) pd) :
    scanLoop d (n + 1) k pg pd = scanLoop d n (k + 1) (gamCand k) (d k) := by
  simp [scanLoop, h]

/-- As long as the very first comparison does not break, the loop returns
one of the scanned candidates. -/
theorem scanLoop_eq_gamCand (d : ℕ → DR) :
    ∀ n k (pg : ℝ) (pd : DR), 1 ≤ n → ¬ DR.gtP (d k) pd →
      ∃ j, k ≤ j ∧ j < k + n ∧ scanLoop d n k pg pd = gamCand j := by
  intro n
  induction n with
  | zero => intro k pg pd h1 _; omega
  | succ m ih =>
    intro k pg pd _ hnb
    rw [scanLoop_step d m k pg pd hnb]
    match m, ih with
    | 0, _ => exact ⟨k, le_refl k, by omega, rfl⟩
    | m2 + 1, ih =>
      by_cases hb : DR.gtP (d (k + 1)) (d k)
      · exact ⟨k, le_refl k, by omega, scanLoop_break d m2 (k + 1) (gamCand k) (d k) hb⟩
      · obtain ⟨j, hj1, hj2, hj3⟩ := ih (k + 1) (gamCand k) (d k) (by omega) hb
        exact ⟨j, by omega, by omega, hj3⟩

/-- When every diff is NaN, no comparison ever breaks and the loop runs
through its whole fuel, returning the last visited candidate. -/
theorem scanLoop_all_nan (d : ℕ → DR) (hd : ∀ j, d j = none) :
    ∀ n k (pg : ℝ) (pd : DR), 1 ≤ n →
      scanLoop d n k pg pd = gamCand (k + n - 1) := by
  intro n
  induction n with
  | zero => intro k pg pd h1; omega
  | succ m ih =>
    intro k pg pd _
    have hnb : ¬ DR.gtP (d k) pd := by rw [hd k]; exact DR.gtP_none_left pd
    rw [scanLoop_step d m k pg pd hnb]
    match m, ih with
    | 0, _ => simp [scanLoop]
    | m2 + 1, ih =>
      rw [ih (k + 1) (gamCand k) (d k) (by omega)]
      congr 1
      omega

theorem capLeast_zero (P : ℕ → Prop) (k : ℕ) : capLeast P k 0 = k := by
  unfold capLeast
  rw [dif_neg]
  · omega
  · rintro ⟨j, hj1, hj2, _⟩; omega

theorem capLeast_here (P : ℕ → Prop) (k n : ℕ) (h : P k) :
    capLeast P k (n + 1) = k := by
  unfold capLeast
  have hex : ∃ j, k ≤ j ∧ j < k + (n + 1) ∧ P j := ⟨k, le_refl k, by omega, h⟩
  rw [dif_pos hex]
  have h1 : Nat.find hex ≤ k := Nat.find_min' hex ⟨le_refl k, by omega, h⟩
  have h2 : k ≤ Nat.find hex := (Nat.find_spec hex).1
  omega

theorem capLeast_succ (P : ℕ → Prop) (k n : ℕ) (h : ¬ P k) :
    capLeast P k (n + 1) = capLeast P (k + 1) n := by
  unfold capLeast
  by_cases h2 : ∃ j, k + 1 ≤ j ∧ j < k + 1 + n ∧ P j
  · obtain ⟨j, hj1, hj2, hj3⟩ := h2
    have h1 : ∃ j, k ≤ j ∧ j < k + (n + 1) ∧ P j := ⟨j, by omega, by omega, hj3⟩
    have h2 : ∃ j, k + 1 ≤ j ∧ j < k + 1 + n ∧ P j := ⟨j, hj1, hj2, hj3⟩
    rw [dif_pos h1, dif_pos h2]
    have ha : k + 1 ≤ Nat.find h1 := by
      have hs := Nat.find_spec h1
      rcases Nat.eq_or_lt_of_le hs.1 with heq | hlt
      · exact absurd (heq ▸ hs.2.2) h
      · omega
    have hle1 : Nat.find h2 ≤ Nat.find h1 := by
      have hs := Nat.find_spec h1
      exact Nat.find_min' h2 ⟨ha, by omega, hs.2.2⟩
    have hle2 : Nat.find h1 ≤ Nat.find h2 := by
      have hs := Nat.find_spec h2
      exact Nat.find_min' h1 ⟨by omega, by omega, hs.2.2⟩
    omega
  · have h1 : ¬ ∃ j, k ≤ j ∧ j < k + (n + 1) ∧ P j := by
      rintro ⟨j, hj1, hj2, hj3⟩
      rcases Nat.eq_or_lt_of_le hj1 with heq | hlt
      · exact h (heq ▸ hj3)
      · exact h2 ⟨j, by omega, by omega, hj3⟩
    rw [dif_neg h1, dif_neg h2]
    omega

/-- Inner characterization of the scan loop: once the first candidate has
been recorded, the loop returns the candidate immediately preceding the
first strict increase of the diff sequence (capped by the fuel). -/
theorem scanLoop_eq_capLeast (d : ℕ → DR) :
    ∀ n k, scanLoop d n (k + 1) (gamCand k) (d k)
      = gamCand (capLeast (fun j => DR.gtP (d (j + 1)) (d j)) k n) := by
  intro n
  induction n with
  | zero => intro k; rw [capLeast_zero]; rfl
  | succ m ih =>
    intro k
    by_cases hb : DR.gtP (d (k + 1)) (d k)
    · rw [scanLoop_break d m (k + 1) (gamCand k) (d k) hb,
        capLeast_here (fun j => DR.gtP (d (j + 1)) (d j)) k m hb]
    · rw [scanLoop_step d m (k + 1) (gamCand k) (d k) hb,
        capLeast_succ (fun j => DR.gtP (d (j + 1)) (d j)) k m hb]
      exact ih (k + 1)

/-- Whenever the very first comparison `diff > 1e10` does not fire, the
source scan computes exactly the spec's first-local-minimum candidate. -/
theorem scanGamma_eq_spec (d : ℕ → DR)
    (h : ¬ DR.gtP (d 0) (some ((10 : ℝ) ^ 10))) :
    scanGamma d = specGammaSearch d := by
  have h1 : scanGamma d = scanLoop d (9799 + 1) 0 0 (some ((10 : ℝ) ^ 10)) := rfl
  rw [h1, scanLoop_step d 9799 0 0 (some ((10 : ℝ) ^ 10)) h]
  have h2 : scanLoop d 9799 (0 + 1) (gamCand 0) (d 0)
      = gamCand (capLeast (fun j => DR.gtP (d (j + 1)) (d j)) 0 9799) :=
    scanLoop_eq_capLeast d 9799 0
  rw [h2]
  rfl

/-- The absolute-value accumulator equals the sum of `|entry|` over all
in-range cells (zero entries contribute zero on either side). -/
theorem abssum_eq_sum_abs (m : Mat) :
    abssum m = ∑ p ∈ cellIdx m, |m.entry p.1 p.2| := by
  have hsplit := Finset.sum_filter_add_sum_filter_not (cellIdx m)
    (fun p => 0 < m.entry p.1 p.2) (fun p => |m.entry p.1 p.2|)
  have hpos : ∑ p ∈ (cellIdx m).filter (fun p => 0 < m.entry p.1 p.2), |m.entry p.1 p.2|
      = ∑ p ∈ (cellIdx m).filter (fun p => 0 < m.entry p.1 p.2), m.entry p.1 p.2 :=
    Finset.sum_congr rfl (fun p hp => abs_of_pos (Finset.mem_filter.mp hp).2)
  have h2 := Finset.sum_filter_add_sum_filter_not
    ((cellIdx m).filter (fun p => ¬ 0 < m.entry p.1 p.2))
    (fun p => m.entry p.1 p.2 < 0) (fun p => |m.entry p.1 p.2|)
  have hff : ((cellIdx m).filter (fun p => ¬ 0 < m.entry p.1 p.2)).filter
      (fun p => m.entry p.1 p.2 < 0)
      = (cellIdx m).filter (fun p => m.entry p.1 p.2 < 0) := by
    rw [Finset.filter_filter]
    exact Finset.filter_congr (fun p _ =>
      ⟨fun h => h.2, fun h => ⟨not_lt.mpr h.le, h⟩⟩)
  have hzero : ∑ p ∈ ((cellIdx m).filter (fun p => ¬ 0 < m.entry p.1 p.2)).filter
      (fun p => ¬ m.entry p.1 p.2 < 0), |m.entry p.1 p.2| = 0 := by
    apply Finset.sum_eq_zero
    intro p hp
    have h1 := (Finset.mem_filter.mp hp).2
    have h3 := (Finset.mem_filter.mp (Finset.mem_filter.mp hp).1).2
    have he : m.entry p.1 p.2 = 0 := le_antisymm (not_lt.mp h3) (not_lt.mp h1)
    simp [he]
  have hneg : ∑ p ∈ (cellIdx m).filter (fun p => m.entry p.1 p.2 < 0), |m.entry p.1 p.2|
      = ∑ p ∈ (cellIdx m).filter (fun p => m.entry p.1 p.2 < 0), -(m.entry p.1 p.2) :=
    Finset.sum_congr rfl (fun p hp => abs_of_neg (Finset.mem_filter.mp hp).2)
  rw [hff, hzero, add_zero, hneg] at h2
  rw [← hsplit, hpos, ← h2, Finset.sum_neg_distrib]
  unfold abssum
  ring

/-- The two squared-sum accumulators together equal the sum of squares over
all in-range cells. -/
theorem sqsum_eq_sum_sq (m : Mat) :
    negsqsum m + possqsum m = ∑ p ∈ cellIdx m, (m.entry p.1 p.2) ^ 2 := by
  have hsplit := Finset.sum_filter_add_sum_filter_not (cellIdx m)
    (fun p => 0 < m.entry p.1 p.2) (fun p => (m.entry p.1 p.2) ^ 2)
  have h2 := Finset.sum_filter_add_sum_filter_not
    ((cellIdx m).filter (fun p => ¬ 0 < m.entry p.1 p.2))
    (fun p => m.entry p.1 p.2 < 0) (fun p => (m.entry p.1 p.2) ^ 2)
  have hff : ((cellIdx m).filter (fun p => ¬ 0 < m.entry p.1 p.2)).filter
      (fun p => m.entry p.1 p.2 < 0)
      = (cellIdx m).filter (fun p => m.entry p.1 p.2 < 0) := by
    rw [Finset.filter_filter]
    exact Finset.filter_congr (fun p _ =>
      ⟨fun h => h.2, fun h => ⟨not_lt.mpr h.le, h⟩⟩)
  have hzero : ∑ p ∈ ((cellIdx m).filter (fun p => ¬ 0 < m.entry p.1 p.2)).filter
      (fun p => ¬ m.entry p.1 p.2 < 0), (m.entry p.1 p.2) ^ 2 = 0 := by
    apply Finset.sum_eq_zero
    intro p hp
    have h1 := (Finset.mem_filter.mp hp).2
    have h3 := (Finset.mem_filter.mp (Finset.mem_filter.mp hp).1).2
    have he : m.entry p.1 p.2 = 0 := le_antisymm (not_lt.mp h3) (not_lt.mp h1)
    simp [he]
  rw [hff, hzero, add_zero] at h2
  rw [← hsplit, ← h2]
  unfold negsqsum possqsum
  ring

/-- Cauchy-Schwarz for the fit statistics: the squared absolute sum is at
most the cell count times the sum of squares. -/
theorem abssum_sq_le (m : Mat) :
    (abssum m) ^ 2 ≤ (totalcount m : ℝ) * (negsqsum m + possqsum m) := by
  rw [abssum_eq_sum_abs, sqsum_eq_sum_sq]
  have h : (∑ p ∈ cellIdx m, |m.entry p.1 p.2|) ^ 2
      ≤ ((cellIdx m).card : ℝ) * ∑ p ∈ cellIdx m, |m.entry p.1 p.2| ^ 2 :=
    sq_sum_le_card_mul_sum_sq
  have hcard : ((cellIdx m).card : ℝ) = (totalcount m : ℝ) := by
    unfold cellIdx totalcount
    rw [Finset.card_product, Finset.card_range, Finset.card_range]
    push_cast
    ring
  have habs : ∑ p ∈ cellIdx m, |m.entry p.1 p.2| ^ 2
      = ∑ p ∈ cellIdx m, (m.entry p.1 p.2) ^ 2 :=
    Finset.sum_congr rfl (fun p _ => sq_abs (m.entry p.1 p.2))
  rw [hcard, habs] at h
  exact h

/-- Whenever `rhatnorm` evaluates to a real number (no NaN on its path),
that number lies in `[0, 2]`: `rhat ≤ 1` by Cauchy-Schwarz and the
`gammahat` correction factor is at most 2. -/
theorem rhatnorm_bounds (m : Mat) {x : ℝ} (h : rhatnormOf m = some x) :
    0 ≤ x ∧ x ≤ 2 := by
  simp only [rhatnormOf] at h
  obtain ⟨nu, de, hnu, hde, hde0, hx⟩ := DR.div_eq_some h
  obtain ⟨t1, t2, ht1, ht2, hdet⟩ := DR.mul_eq_some hde
  obtain ⟨gg1, o1, hgg1, ho1, ht1e⟩ := DR.add_eq_some ht1
  obtain ⟨gva, gvb, hga, hgb, hgg1e⟩ := DR.mul_eq_some hgg1
  obtain ⟨gg2, o2, hgg2, ho2, ht2e⟩ := DR.add_eq_some ht2
  obtain ⟨gvc, gvd, hgc, hgd, hgg2e⟩ := DR.mul_eq_some hgg2
  obtain ⟨n1, gp1, hn1, hgp1, hnue⟩ := DR.mul_eq_some hnu
  obtain ⟨rv, g3p1, hrv, hg3p1, hn1e⟩ := DR.mul_eq_some hn1
  obtain ⟨ggg, o3, hggg, ho3, hg3e⟩ := DR.add_eq_some hg3p1
  obtain ⟨gg3, gve, hgg3, hge, hggge⟩ := DR.mul_eq_some hggg
  obtain ⟨gvf, gvg, hgf, hgg, hgg3e⟩ := DR.mul_eq_some hgg3
  obtain ⟨gvh, o4, hgh, ho4, hgp1e⟩ := DR.add_eq_some hgp1
  -- all the `some`-valued copies of gammahat carry the same real value
  set gv := gva with hgvdef
  have egb : gvb = gva := by rw [hga] at hgb; exact (Option.some_inj.mp hgb).symm
  have egc : gvc = gva := by rw [hga] at hgc; exact (Option.some_inj.mp hgc).symm
  have egd : gvd = gva := by rw [hga] at hgd; exact (Option.some_inj.mp hgd).symm
  have ege : gve = gva := by rw [hga] at hge; exact (Option.some_inj.mp hge).symm
  have egf : gvf = gva := by rw [hga] at hgf; exact (Option.some_inj.mp hgf).symm
  have egg : gvg = gva := by rw [hga] at hgg; exact (Option.some_inj.mp hgg).symm
  have egh : gvh = gva := by rw [hga] at hgh; exact (Option.some_inj.mp hgh).symm
  have eo1 : o1 = 1 := Option.some_inj.mp ho1.symm
  have eo2 : o2 = 1 := Option.some_inj.mp ho2.symm
  have eo3 : o3 = 1 := Option.some_inj.mp ho3.symm
  have eo4 : o4 = 1 := Option.some_inj.mp ho4.symm
  -- gammahat is a quotient of two square roots, hence nonnegative
  have hgv0 : 0 ≤ gv := by
    obtain ⟨lv, rv2, hlv, hrv2, hrv20, hgve⟩ := DR.div_eq_some hga
    obtain ⟨la, hla, hla0, hlve⟩ := DR.powHalf_eq_some hlv
    obtain ⟨ra, hra, hra0, hrve⟩ := DR.powHalf_eq_some hrv2
    rw [hgve, hlve, hrve]
    exact div_nonneg (Real.sqrt_nonneg la) (Real.sqrt_nonneg ra)
  -- rhat is nonnegative and at most 1
  have hrvb : 0 ≤ rv ∧ rv ≤ 1 := by
    simp only [rhatOf] at hrv
    obtain ⟨q, w, hq, hw, hw0, hrve⟩ := DR.div_eq_some hrv
    obtain ⟨S2, N2, hS2, hN2, hN20, hwe⟩ := DR.div_eq_some hw
    obtain ⟨av1, av2, hav1, hav2, hqe⟩ := DR.mul_eq_some hq
    obtain ⟨A2, N3, hA2, hN3, hN30, hav1e⟩ := DR.div_eq_some hav1
    have eav2 : av2 = av1 := by rw [hav1] at hav2; exact (Option.some_inj.mp hav2).symm
    have eS2 : S2 = negsqsum m + possqsum m := Option.some_inj.mp hS2.symm
    have eN2 : N2 = (totalcount m : ℝ) := Option.some_inj.mp hN2.symm
    have eA2 : A2 = abssum m := Option.some_inj.mp hA2.symm
    have eN3 : N3 = (totalcount m : ℝ) := Option.some_inj.mp hN3.symm
    have hS0 : 0 ≤ negsqsum m + possqsum m := by
      apply add_nonneg <;>
        exact Finset.sum_nonneg (fun p _ => sq_nonneg (m.entry p.1 p.2))
    have hNpos : (0 : ℝ) < (totalcount m : ℝ) := by
      rcases lt_or_eq_of_le (Nat.cast_nonneg (totalcount m) : (0:ℝ) ≤ _) with h1 | h1
      · exact h1
      · exact absurd h1.symm (eN2 ▸ hN20)
    have hSpos : (0 : ℝ) < negsqsum m + possqsum m := by
      rcases lt_or_eq_of_le hS0 with h1 | h1
      · exact h1
      · exfalso
        apply hw0
        rw [hwe, eS2, eN2, ← h1]
        simp
    have hwpos : 0 < w := by
      rw [hwe, eS2, eN2]
      exact div_pos hSpos hNpos
    constructor
    · rw [hrve, hqe, eav2]
      exact div_nonneg (mul_self_nonneg av1) hwpos.le
    · rw [hrve, hqe, eav2]
      rw [div_le_one hwpos]
      rw [hav1e, eA2, eN3, hwe, eS2, eN2]
      rw [div_mul_div_comm, div_le_div_iff (by positivity) hNpos]
      have key := mul_le_mul_of_nonneg_right (abssum_sq_le m) hNpos.le
      nlinarith [key]
  -- assemble: x is the quotient of the bounded numerator by the square
  -- denominator
  rw [hdet, ht1e, ht2e, hgg1e, hgg2e, egb, egc, egd, eo1, eo2] at hx
  rw [hnue, hn1e, hg3e, hggge, hgg3e, ege, egf, egg, hgp1e, egh, eo3, eo4] at hx
  have hden : (0 : ℝ) < (gv * gv + 1) * (gv * gv + 1) := by positivity
  have hcube : 0 ≤ gv * gv * gv := mul_nonneg (mul_nonneg hgv0 hgv0) hgv0
  have hP : 0 ≤ gv * gv * gv + 1 := by linarith
  have hQ : 0 ≤ gv + 1 := by linarith
  have hnum0 : 0 ≤ rv * (gv * gv * gv + 1) * (gv + 1) :=
    mul_nonneg (mul_nonneg hrvb.1 hP) hQ
  constructor
  · rw [hx]
    exact div_nonneg hnum0 hden.le
  · rw [hx, div_le_iff hden]
    have step1 : rv * ((gv * gv * gv + 1) * (gv + 1))
        ≤ 1 * ((gv * gv * gv + 1) * (gv + 1)) :=
      mul_le_mul_of_nonneg_right hrvb.2 (mul_nonneg hP hQ)
    have step2 : (gv * gv * gv + 1) * (gv + 1) ≤ 2 * ((gv * gv + 1) * (gv * gv + 1)) := by
      linarith [sq_nonneg (gv * gv - gv), sq_nonneg (6 * gv - 1), hcube]
    linarith [step1, step2]

/-- At the first candidate `0.2` the moment ratio has the exact value
`(9!)² / (4! · 14!)`, which lies in `[0, 1]`. -/
theorem rGam_first_bounds : 0 ≤ rGam (gamCand 0) ∧ rGam (gamCand 0) ≤ 1 := by
  have h0 : gamCand 0 = 1 / 5 := by norm_num [gamCand]
  have h2 : (2 : ℝ) / (1 / 5) = ((9 : ℕ) : ℝ) + 1 := by norm_num
  have h1 : (1 : ℝ) / (1 / 5) = ((4 : ℕ) : ℝ) + 1 := by norm_num
  have h3 : (3 : ℝ) / (1 / 5) = ((14 : ℕ) : ℝ) + 1 := by norm_num
  have g2 : Real.Gamma ((2 : ℝ) / (1 / 5)) = ((Nat.factorial 9 : ℕ) : ℝ) := by
    rw [h2, Real.Gamma_nat_eq_factorial]
  have g1 : Real.Gamma ((1 : ℝ) / (1 / 5)) = ((Nat.factorial 4 : ℕ) : ℝ) := by
    rw [h1, Real.Gamma_nat_eq_factorial]
  have g3 : Real.Gamma ((3 : ℝ) / (1 / 5)) = ((Nat.factorial 14 : ℕ) : ℝ) := by
    rw [h3, Real.Gamma_nat_eq_factorial]
  have e9 : Nat.factorial 9 = 362880 := by decide
  have e4 : Nat.factorial 4 = 24 := by decide
  have e14 : Nat.factorial 14 = 87178291200 := by norm_num [Nat.factorial]
  unfold rGam
  rw [h0, g2, g1, g3, e9, e4, e14]
  constructor
  · positivity
  · rw [div_le_one (by norm_num)]
    norm_num

/-- The very first comparison `diff > 1e10` of the gamma scan never fires:
either `rhatnorm` is NaN (and an IEEE comparison on NaN is false), or it
lies in `[0, 2]` and the first diff is at most 3. -/
theorem first_diff_no_break (m : Mat) :
    ¬ DR.gtP (diffSeq (rhatnormOf m) 0) (some ((10 : ℝ) ^ 10)) := by
  cases hr : rhatnormOf m with
  | none =>
    simp [diffSeq, DR.sub, DR.dabs, DR.gtP]
  | some x =>
    have hb := rhatnorm_bounds m hr
    have hg := rGam_first_bounds
    simp only [diffSeq, DR.sub, DR.dabs, DR.gtP]
    intro hlt
    have habs : |rGam (gamCand 0) - x| ≤ 3 := by
      rw [abs_le]
      constructor <;> linarith [hb.1, hb.2, hg.1, hg.2]
    have hten : (3 : ℝ) < (10 : ℝ) ^ 10 := by norm_num
    linarith

/-- C6: the AGGD fitter's shape-parameter search scans the candidates
`0.2 + k·0.001` strictly below 10, computes
`diff = |Γ(2/γ)²/(Γ(1/γ)·Γ(3/γ)) − rHatNorm|` at each, stops as soon as
`diff` strictly increases relative to the previous step, and returns the
last candidate whose diff did not increase — the first local minimum of
the scanned sequence (`specGammaSearch`, written from the spec's words). -/
theorem C6_gamma_search_first_local_min (m : Mat) :
    (AGGDfit m).gammaBest = specGammaSearch (diffSeq (rhatnormOf m)) :=
  scanGamma_eq_spec (diffSeq (rhatnormOf m)) (first_diff_no_break m)

/-- C10: for every coefficient field — including degenerate fields whose
`rhatnorm` is NaN, where no comparison ever stops the scan early — the
fitter returns one of the scanned candidates `0.2 + k·0.001`, hence a value
in `[0.2, 10)`; the initial placeholder 0 is never returned. -/
theorem C10_gammaBest_always_candidate (m : Mat) :
    (∃ k, k < numCandidates ∧ (AGGDfit m).gammaBest = gamCand k)
    ∧ 1 / 5 ≤ (AGGDfit m).gammaBest
    ∧ (AGGDfit m).gammaBest < 10
    ∧ (AGGDfit m).gammaBest ≠ 0
    ∧ (rhatnormOf m = none → (AGGDfit m).gammaBest = gamCand (numCandidates - 1)) := by
  have hnb := first_diff_no_break m
  obtain ⟨j, hj0, hjlt, hje⟩ := scanLoop_eq_gamCand (diffSeq (rhatnormOf m))
    numCandidates 0 0 (some ((10 : ℝ) ^ 10)) (by norm_num [numCandidates]) hnb
  have hbest : (AGGDfit m).gammaBest = gamCand j := hje
  have hjnc : j < numCandidates := by omega
  have hge : 1 / 5 ≤ gamCand j := by
    have h0 : 0 ≤ (j : ℝ) * (1 / 1000) := by positivity
    unfold gamCand
    linarith
  refine ⟨⟨j, hjnc, hbest⟩, hbest ▸ hge, ?_, ?_, ?_⟩
  · rw [hbest]
    exact (gamCand_lt_ten_iff j).mpr hjnc
  · rw [hbest]
    have : (0 : ℝ) < gamCand j := by linarith
    exact ne_of_gt this
  · intro hnone
    have hd : ∀ k, diffSeq (rhatnormOf m) k = none := by
      intro k
      rw [hnone]
      simp [diffSeq, DR.sub, DR.dabs]
    have h1 : (AGGDfit m).gammaBest
        = gamCand (0 + numCandidates - 1) :=
      scanLoop_all_nan (diffSeq (rhatnormOf m)) hd numCandidates 0 0
        (some ((10 : ℝ) ^ 10)) (by norm_num [numCandidates])
    rw [h1]
    norm_num

theorem DR.div_some {a b : ℝ} (h : b ≠ 0) : DR.div (some a) (some b) = some (a / b) := by
  simp [DR.div, h]

theorem DR.powHalf_some {a : ℝ} (h : 0 ≤ a) : DR.powHalf (some a) = some (Real.sqrt a) := by
  simp [DR.powHalf, not_lt.mpr h]

theorem DR.mul_some (a b : ℝ) : DR.mul (some a) (some b) = some (a * b) := rfl

theorem DR.add_some (a b : ℝ) : DR.add (some a) (some b) = some (a + b) := rfl

theorem DR.sub_some (a b : ℝ) : DR.sub (some a) (some b) = some (a - b) := rfl

theorem DR.dabs_some (a : ℝ) : DR.dabs (some a) = some |a| := rfl

theorem testField_stats :
    poscount testField = 2 ∧ negcount testField = 2 ∧ possqsum testField = 5
    ∧ negsqsum testField = 5 ∧ abssum testField = 6 := by
  have hcells : cellIdx testField = Finset.range 2 ×ˢ Finset.range 2 := rfl
  refine ⟨?_, ?_, ?_, ?_, ?_⟩
  · unfold poscount
    rw [hcells, Finset.card_filter, Finset.sum_product,
      Finset.sum_range_succ, Finset.sum_range_succ, Finset.sum_range_zero]
    rw [Finset.sum_range_succ, Finset.sum_range_succ, Finset.sum_range_zero]
    rw [Finset.sum_range_succ, Finset.sum_range_succ, Finset.sum_range_zero]
    norm_num [testField]
  · unfold negcount
    rw [hcells, Finset.card_filter, Finset.sum_product,
      Finset.sum_range_succ, Finset.sum_range_succ, Finset.sum_range_zero]
    rw [Finset.sum_range_succ, Finset.sum_range_succ, Finset.sum_range_zero]
    rw [Finset.sum_range_succ, Finset.sum_range_succ, Finset.sum_range_zero]
    norm_num [testField]
  · unfold possqsum
    rw [Finset.sum_filter, hcells, Finset.sum_product,
      Finset.sum_range_succ, Finset.sum_range_succ, Finset.sum_range_zero]
    rw [Finset.sum_range_succ, Finset.sum_range_succ, Finset.sum_range_zero]
    rw [Finset.sum_range_succ, Finset.sum_range_succ, Finset.sum_range_zero]
    norm_num [testField]
  · unfold negsqsum
    rw [Finset.sum_filter, hcells, Finset.sum_product,
      Finset.sum_range_succ, Finset.sum_range_succ, Finset.sum_range_zero]
    rw [Finset.sum_range_succ, Finset.sum_range_succ, Finset.sum_range_zero]
    rw [Finset.sum_range_succ, Finset.sum_range_succ, Finset.sum_range_zero]
    norm_num [testField]
  · unfold abssum
    rw [Finset.sum_filter, Finset.sum_filter, hcells, Finset.sum_product,
      Finset.sum_product]
    rw [Finset.sum_range_succ, Finset.sum_range_succ, Finset.sum_range_zero]
    rw [Finset.sum_range_succ, Finset.sum_range_succ, Finset.sum_range_zero]
    rw [Finset.sum_range_succ, Finset.sum_range_succ, Finset.sum_range_zero]
    rw [Finset.sum_range_succ, Finset.sum_range_succ, Finset.sum_range_zero]
    rw [Finset.sum_range_succ, Finset.sum_range_succ, Finset.sum_range_zero]
    rw [Finset.sum_range_succ, Finset.sum_range_succ, Finset.sum_range_zero]
    norm_num [testField]

/-- C7: on the 2×2 coefficient field `[[-2,-1],[1,2]]` the AGGD fitter
computes `poscount = negcount = 2`, `possqsum = negsqsum = 5`,
`abssum = 6`, reports `leftScale = rightScale = sqrt(2.5)`, `gammaHat = 1`
and `rHatNorm = 0.9`, and returns as `gammaBest` the first local minimum
(at 0.001 resolution, scanning upward from 0.2) of
`|Γ(2/g)²/(Γ(1/g)Γ(3/g)) − 0.9|`. -/
theorem C7_closed_form_2x2_check :
    poscount testField = 2 ∧ negcount testField = 2
    ∧ possqsum testField = 5 ∧ negsqsum testField = 5 ∧ abssum testField = 6
    ∧ (AGGDfit testField).lsigma = some (Real.sqrt (5 / 2))
    ∧ (AGGDfit testField).rsigma = some (Real.sqrt (5 / 2))
    ∧ gammahatOf testField = some 1
    ∧ rhatnormOf testField = some (9 / 10)
    ∧ (AGGDfit testField).gammaBest
        = specGammaSearch (fun k => some |rGam (gamCand k) - 9 / 10|) := by
  obtain ⟨hpc, hnc, hps, hns, hab⟩ := testField_stats
  have hls : lsigmaOf testField = some (Real.sqrt (5 / 2)) := by
    unfold lsigmaOf
    rw [hns, hnc, DR.div_some (by norm_num), DR.powHalf_some (by norm_num)]
    norm_num
  have hrs : rsigmaOf testField = some (Real.sqrt (5 / 2)) := by
    unfold rsigmaOf
    rw [hps, hpc, DR.div_some (by norm_num), DR.powHalf_some (by norm_num)]
    norm_num
  have hs0 : Real.sqrt (5 / 2) ≠ 0 := by positivity
  have hgh : gammahatOf testField = some 1 := by
    unfold gammahatOf
    rw [hls, hrs, DR.div_some hs0, div_self hs0]
  have hrt : rhatOf testField = some (9 / 10) := by
    simp only [rhatOf]
    rw [hab, hns, hps, show totalcount testField = 4 from rfl]
    rw [DR.div_some (by norm_num), DR.div_some (by norm_num), DR.mul_some,
      DR.div_some (by norm_num)]
    norm_num
  have hrn : rhatnormOf testField = some (9 / 10) := by
    simp only [rhatnormOf]
    rw [hgh, hrt]
    simp only [DR.mul_some, DR.add_some]
    rw [DR.div_some (by norm_num)]
    norm_num
  have hdiff : diffSeq (rhatnormOf testField)
      = fun k => some |rGam (gamCand k) - 9 / 10| := by
    funext k
    simp only [diffSeq]
    rw [hrn, DR.sub_some, DR.dabs_some]
  refine ⟨hpc, hnc, hps, hns, hab, hls, hrs, hgh, hrn, ?_⟩
  calc (AGGDfit testField).gammaBest
      = scanGamma (diffSeq (rhatnormOf testField)) := rfl
    _ = specGammaSearch (diffSeq (rhatnormOf testField)) :=
        scanGamma_eq_spec _ (first_diff_no_break testField)
    _ = specGammaSearch (fun k => some |rGam (gamCand k) - 9 / 10|) := by rw [hdiff]

/-- The sequential push-back accumulation of the source equals the
declarative scale-major assembly written from the spec. -/
theorem feature_vector_eq_spec (C : Collab) (img : ColorImage) :
    ComputeBrisqueFeature C img = specFeatureVector C img := by
  simp [ComputeBrisqueFeature, specFeatureVector, scalePass, scaleMSCN, shifts,
    List.range_succ, List.append_assoc]

/-- The feature vector always has exactly 36 entries: 2 scales × (2 MSCN
numbers + 4 orientations × 4 numbers). -/
theorem feature_vector_length (C : Collab) (img : ColorImage) :
    (ComputeBrisqueFeature C img).length = 36 := by
  rw [feature_vector_eq_spec]
  simp [specFeatureVector, orientFeatures, shifts]

/-- C1: for every input image, the feature-extraction pipeline produces a
vector of exactly 36 numbers in scale-major order: for each of scales 1
and 2, the MSCN fit's gamma then `(leftScale² + rightScale²)/2`, then for
each orientation H, V, D1, D2 the four numbers gamma, meanParam,
leftScale², rightScale² (`specFeatureVector`, written from the spec's
wording). -/
theorem C1_feature_vector_36_scale_major (C : Collab) (img : ColorImage) :
    (ComputeBrisqueFeature C img).length = 36
    ∧ ComputeBrisqueFeature C img = specFeatureVector C img :=
  ⟨feature_vector_length C img, feature_vector_eq_spec C img⟩

/-- C5 (counterexample): the claim says an input whose scaled dimensions
fall below 7 fails fast with InvalidInput and produces no result; but
ComputeBrisqueFeature contains no size validation, and on the 6×6 image —
which satisfies the claim's must-fail predicate — it runs to completion
and produces the full 36-entry feature vector. -/
theorem C5_counterexample_small_image_processed :
    sizeBelowMin 6 6 = true
    ∧ (ComputeBrisqueFeature idCollab img6x6).length = 36 :=
  ⟨by decide, feature_vector_length idCollab img6x6⟩

/-- C5 (amended): the code performs no minimum-size validation: even when
some scale's dimensions fall below 7, the feature computation runs to
completion with all 36 entries (failures can only come from the external
resize on a zero target dimension, outside this repository's code). -/
theorem C5_amended_no_size_validation (C : Collab) (img : ColorImage)
    (h : sizeBelowMin img.cols img.rows = true) :
    (ComputeBrisqueFeature C img).length = 36 :=
  feature_vector_length C img

theorem C5_amended_no_size_validation_witness :
    sizeBelowMin img8x3.cols img8x3.rows = true
    ∧ (ComputeBrisqueFeature idCollab img8x3).length = 36 :=
  ⟨by decide, C5_amended_no_size_validation idCollab img8x3 (by decide)⟩

/-- C3 (code_bug evidence): the claim (and the comment at line 186) says
the grayscale-normalization stage yields a floating-point buffer with
values in [0,1]; but `convertTo(orig_bw, 1.0/255)` passes `1.0/255` as the
integer `rtype` argument (truncated to 0 = CV_8U) with default scale 1, so
on an all-white pixel the stage outputs 255, not a value in [0,1]. -/
theorem C3_gray_stage_not_unit_range :
    (grayStage whiteImage).entry 0 0 = 255
    ∧ ¬ (grayStage whiteImage).entry 0 0 ≤ 1 := by
  have hl : luma8 255 255 255 = 255 := by
    have harg : ((299 / 1000 : ℝ) * ((255 : ℕ) : ℝ) + (587 / 1000) * ((255 : ℕ) : ℝ)
        + (114 / 1000) * ((255 : ℕ) : ℝ)) = ((255 : ℕ) : ℝ) := by
      push_cast
      ring
    unfold luma8
    rw [harg, round_natCast]
    norm_num
  have h0 : (grayStage whiteImage).entry 0 0 = 255 := by
    show ((sat8 (round (((sat8 (luma8 255 255 255) : ℤ) : ℝ))) : ℤ) : ℝ) = 255
    rw [hl, show sat8 255 = 255 from rfl,
      show ((255 : ℤ) : ℝ) = ((255 : ℕ) : ℝ) by norm_num, round_natCast,
      show sat8 ((255 : ℕ) : ℤ) = 255 from rfl]
    norm_num
  refine ⟨h0, ?_⟩
  rw [h0]
  norm_num

/-- C9 (counterexample): the claim says loading fails with ParseError also
when the file contents are malformed; but a present file with two header
lines and no data lines at all (zero parsed numbers) is accepted — the
`fscanf` results are never checked — and construction succeeds. -/
theorem C9_counterexample_malformed_file_accepted :
    load_range_data (some []) = true
    ∧ brisque_svm_data_ctor true (some []) = Except.ok () :=
  ⟨rfl, rfl⟩

/-- C9 (amended): loading the range data fails — with ParseError raised by
the constructor before any image processing — exactly when the file is
absent; malformed contents of a present file are not detected. -/
theorem C9_amended_fails_iff_absent (f : Option (List ℚ)) :
    (load_range_data f = false ↔ f = none)
    ∧ (brisque_svm_data_ctor true f = Except.error "Invalid range data file" ↔ f = none) := by
  cases f <;> simp [load_range_data, brisque_svm_data_ctor]

/-- C2 (code_bug evidence): constructed with the range file whose pairs
are all (0, 1) and a feature vector whose entry 0 is 0, the claim's
formula yields −1, but computescore rescales with its hardcoded tables
(min 0.336999, max 9.999411) and passes a different value: the loaded
range data is ignored. -/
theorem C2_hardcoded_ranges_divergence :
    loadedRanges rangeFileZeroOne 0 = (0, 1)
    ∧ specScaledFeature rangeFileZeroOne (List.replicate 36 (some 0)) 0 = some (-1)
    ∧ svmNodeValue (List.replicate 36 (some 0)) 0
      ≠ specScaledFeature rangeFileZeroOne (List.replicate 36 (some 0)) 0 := by
  have hr : loadedRanges rangeFileZeroOne 0 = (0, 1) := by decide
  have hf : (List.replicate 36 (some (0 : ℝ))).getD 0 none = some 0 := rfl
  have hspec : specScaledFeature rangeFileZeroOne (List.replicate 36 (some 0)) 0
      = some (-1) := by
    unfold specScaledFeature
    rw [hr, hf, DR.sub_some, DR.mul_some, DR.div_some (by norm_num), DR.add_some]
    norm_num
  refine ⟨hr, hspec, ?_⟩
  rw [hspec]
  unfold svmNodeValue
  rw [hf]
  rw [show hardMax.getD 0 0 = 9.999411 from rfl, show hardMin.getD 0 0 = 0.336999 from rfl]
  rw [DR.sub_some, DR.mul_some, DR.add_some]
  intro hcontra
  rw [Option.some_inj] at hcontra
  norm_num at hcontra

/-- In a weighted smoothing with nonnegative weights of total mass 1, the
smoothed second moment dominates the square of the smoothed mean
(Cauchy-Schwarz), pointwise; so the variance image of the MSCN transform
is nonnegative in exact arithmetic. -/
theorem blurW_second_moment_ge (W : ℕ × ℕ → ℕ × ℕ → ℝ) (m : Mat)
    (hW0 : ∀ q p, 0 ≤ W q p) (hW1 : ∀ q, ∑ p ∈ cellIdx m, W q p = 1) (i j : ℕ) :
    ((blurW W m).entry i j) ^ 2 ≤ (blurW W (matMul m m)).entry i j := by
  have h : (∑ p ∈ cellIdx m, W (i, j) p * m.entry p.1 p.2) ^ 2
      ≤ (∑ p ∈ cellIdx m, W (i, j) p)
        * ∑ p ∈ cellIdx m, W (i, j) p * (m.entry p.1 p.2 * m.entry p.1 p.2) :=
    Finset.sum_sq_le_sum_mul_sum_of_sq_eq_mul (cellIdx m)
      (fun p _ => hW0 (i, j) p)
      (fun p _ => mul_nonneg (hW0 (i, j) p) (mul_self_nonneg _))
      (fun p _ => by ring)
  rw [hW1 (i, j), one_mul] at h
  exact h

/-- C4: in the MSCN transform, for every pixel the local standard
deviation sigma is the square root of `max(second-moment − mu², 0)` (the
variance is floored at 0 before the root — in exact arithmetic the
variance is nonnegative, so OpenCV's `pow(·, 0.5) = sqrt |·|` computes
exactly this), then `1/255` is added, and the output coefficient equals
`(image − mu) / sigma`. -/
theorem C4_mscn_sigma_formula (W : ℕ × ℕ → ℕ × ℕ → ℝ) (m : Mat) (C : Collab)
    (hW0 : ∀ q p, 0 ≤ W q p) (hW1 : ∀ q, ∑ p ∈ cellIdx m, W q p = 1)
    (hC : C.blur = blurW W) (i j : ℕ) :
    (mscnField C m).entry i j
      = (m.entry i j - (C.blur m).entry i j)
        / (Real.sqrt (max ((C.blur (matMul m m)).entry i j
            - ((C.blur m).entry i j) ^ 2) 0) + 1 / 255) := by
  have hm := blurW_second_moment_ge W m hW0 hW1 i j
  rw [pow_two] at hm
  have hv2 : 0 ≤ (blurW W (matMul m m)).entry i j
      - (blurW W m).entry i j * (blurW W m).entry i j := by linarith
  simp only [mscnField, matDivM, matSub, matAddC, matMap, hC]
  rw [abs_of_nonneg hv2, pow_two, max_eq_left hv2]

theorem C4_mscn_sigma_formula_witness :
    (mscnField w1Collab mat1x1).entry 0 0
      = (mat1x1.entry 0 0 - (w1Collab.blur mat1x1).entry 0 0)
        / (Real.sqrt (max ((w1Collab.blur (matMul mat1x1 mat1x1)).entry 0 0
            - ((w1Collab.blur mat1x1).entry 0 0) ^ 2) 0) + 1 / 255) :=
  C4_mscn_sigma_formula unitW mat1x1 w1Collab (fun _ _ => zero_le_one)
    (fun q => by simp [cellIdx, mat1x1, unitW]) rfl 0 0

theorem DR.mul_none_left (b : DR) : DR.mul none b = none := by cases b <;> rfl

theorem DR.mul_none_right (a : DR) : DR.mul a none = none := by cases a <;> rfl

theorem DR.add_none_left (b : DR) : DR.add none b = none := by cases b <;> rfl

theorem DR.add_none_right (a : DR) : DR.add a none = none := by cases a <;> rfl

theorem DR.sub_none_left (b : DR) : DR.sub none b = none := by cases b <;> rfl

theorem DR.sub_none_right (a : DR) : DR.sub a none = none := by cases a <;> rfl

theorem DR.div_none_left (b : DR) : DR.div none b = none := by cases b <;> rfl

theorem AGGDfit_lsigma (m : Mat) : (AGGDfit m).lsigma = lsigmaOf m := rfl

theorem AGGDfit_rsigma (m : Mat) : (AGGDfit m).rsigma = rsigmaOf m := rfl

/-- On a uniform image with 8-bit value `c`, the grayscale stage outputs
the constant `c` everywhere. -/
theorem grayStage_const (img : ColorImage) (c : ℕ) (hc : c ≤ 255)
    (hB : ∀ i j, img.chanB i j = c) (hG : ∀ i j, img.chanG i j = c)
    (hR : ∀ i j, img.chanR i j = c) :
    ∀ i j, (grayStage img).entry i j = (c : ℝ) := by
  intro i j
  have hl : luma8 c c c = (c : ℤ) := by
    have harg : ((299 / 1000 : ℝ) * ((c : ℕ) : ℝ) + (587 / 1000) * ((c : ℕ) : ℝ)
        + (114 / 1000) * ((c : ℕ) : ℝ)) = ((c : ℕ) : ℝ) := by
      push_cast
      ring
    unfold luma8
    rw [harg, round_natCast]
  have hs : sat8 (c : ℤ) = (c : ℤ) := by
    have h255 : (c : ℤ) ≤ 255 := by exact_mod_cast hc
    have h0 : (0 : ℤ) ≤ (c : ℤ) := Int.natCast_nonneg c
    unfold sat8
    omega
  simp only [grayStage, convertTo8U, cvtColorBGR2GRAY, hB, hG, hR]
  rw [hl, hs, Int.cast_natCast, round_natCast, hs, Int.cast_natCast]

/-- A constant source stays constant (scaled by 1/255) through the
per-scale resize-and-rescale step. -/
theorem scaledInput_const (C : Collab) (hrd : resizeDims C) (hrc : resizeConst C)
    (bw : Mat) (c : ℝ) (hr : 0 < bw.rows) (hco : 0 < bw.cols)
    (hbw : ∀ i j, i < bw.rows → j < bw.cols → bw.entry i j = c) (s : ℕ) :
    ∀ i j, i < (scaledInput C bw s).rows → j < (scaledInput C bw s).cols →
      (scaledInput C bw s).entry i j = 1 / 255 * c := by
  intro i j hi hj
  have hi2 : i < (C.resize (bw.cols / 2 ^ (s - 1)) (bw.rows / 2 ^ (s - 1)) bw).rows := hi
  have hj2 : j < (C.resize (bw.cols / 2 ^ (s - 1)) (bw.rows / 2 ^ (s - 1)) bw).cols := hj
  rw [(hrd (bw.cols / 2 ^ (s - 1)) (bw.rows / 2 ^ (s - 1)) bw).1] at hi2
  rw [(hrd (bw.cols / 2 ^ (s - 1)) (bw.rows / 2 ^ (s - 1)) bw).2] at hj2
  show 1 / 255 * (C.resize (bw.cols / 2 ^ (s - 1)) (bw.rows / 2 ^ (s - 1)) bw).entry i j
      = 1 / 255 * c
  rw [hrc (bw.cols / 2 ^ (s - 1)) (bw.rows / 2 ^ (s - 1)) bw c hr hco hbw i j hi2 hj2]

/-- The MSCN field of a constant buffer is identically zero on its cells:
`mu = c`, second moment `= c²`, variance 0, sigma `= 1/255`, numerator 0. -/
theorem mscnField_const_zero (C : Collab) (hbc : blurConst C)
    (m : Mat) (c : ℝ) (hm : ∀ i j, i < m.rows → j < m.cols → m.entry i j = c) :
    ∀ i j, i < m.rows → j < m.cols → (mscnField C m).entry i j = 0 := by
  intro i j hi hj
  have hmu : (C.blur m).entry i j = c := hbc m c hm i j hi hj
  have hmm : ∀ a b, a < (matMul m m).rows → b < (matMul m m).cols →
      (matMul m m).entry a b = c * c := by
    intro a b ha hb
    show m.entry a b * m.entry a b = c * c
    rw [hm a b ha hb]
  have hS : (C.blur (matMul m m)).entry i j = c * c := hbc (matMul m m) (c * c) hmm i j hi hj
  show (m.entry i j - (C.blur m).entry i j)
      / (Real.sqrt |(C.blur (matMul m m)).entry i j
          - (C.blur m).entry i j * (C.blur m).entry i j| + 1 / 255) = 0
  rw [hm i j hi hj, hmu, hS]
  simp

/-- The AGGD fit of an all-zero field: both sign classes are empty, both
scales are NaN (0/0), and `rhatnorm` is NaN. -/
theorem AGGD_zero_field (m : Mat)
    (hm : ∀ i j, i < m.rows → j < m.cols → m.entry i j = 0) :
    poscount m = 0 ∧ negcount m = 0 ∧ lsigmaOf m = none ∧ rsigmaOf m = none
    ∧ rhatnormOf m = none := by
  have hmem : ∀ p ∈ cellIdx m, m.entry p.1 p.2 = 0 := by
    intro p hp
    rw [cellIdx, Finset.mem_product, Finset.mem_range, Finset.mem_range] at hp
    exact hm p.1 p.2 hp.1 hp.2
  have hpc : poscount m = 0 := by
    unfold poscount
    rw [Finset.card_eq_zero]
    apply Finset.filter_false_of_mem
    intro p hp
    rw [hmem p hp]
    exact lt_irrefl 0
  have hnc : negcount m = 0 := by
    unfold negcount
    rw [Finset.card_eq_zero]
    apply Finset.filter_false_of_mem
    intro p hp
    rw [hmem p hp]
    exact lt_irrefl 0
  have hls : lsigmaOf m = none := by
    unfold lsigmaOf
    rw [hnc]
    simp [DR.div, DR.powHalf]
  have hrs : rsigmaOf m = none := by
    unfold rsigmaOf
    rw [hpc]
    simp [DR.div, DR.powHalf]
  have hgn : gammahatOf m = none := by
    unfold gammahatOf
    rw [hls, hrs]
    rfl
  have hrn : rhatnormOf m = none := by
    simp only [rhatnormOf]
    rw [hgn]
    simp [DR.mul_none_left, DR.mul_none_right, DR.add_none_left, DR.div_none_left]
  exact ⟨hpc, hnc, hls, hrs, hrn⟩

/-- On a NaN `rhatnorm` every diff is NaN, no comparison fires, and the
scan returns the last candidate. -/
theorem gammaBest_of_rhatnorm_none (m : Mat) (h : rhatnormOf m = none) :
    (AGGDfit m).gammaBest = gamCand (numCandidates - 1) := by
  have hd : ∀ k, diffSeq (rhatnormOf m) k = none := by
    intro k
    rw [h]
    simp [diffSeq, DR.sub, DR.dabs]
  have h1 : (AGGDfit m).gammaBest = gamCand (0 + numCandidates - 1) :=
    scanLoop_all_nan _ hd numCandidates 0 0 _ (by norm_num [numCandidates])
  rw [h1]
  norm_num

/-- Pairwise products of an all-zero field are all-zero. -/
theorem pairProduct_zero (st : Mat)
    (hst : ∀ i j, i < st.rows → j < st.cols → st.entry i j = 0) (di dj : ℤ) :
    ∀ i j, i < (pairProduct st di dj).rows → j < (pairProduct st di dj).cols →
      (pairProduct st di dj).entry i j = 0 := by
  intro i j hi hj
  show st.entry i j * (shiftField st di dj).entry i j = 0
  rw [hst i j hi hj, zero_mul]

/-- A scale pass whose MSCN field is all-zero appends exactly the NaN
block. -/
theorem scalePass_nan (C : Collab) (fv : List DR) (imdist : Mat)
    (hz : ∀ i j, i < (mscnField C imdist).rows → j < (mscnField C imdist).cols →
      (mscnField C imdist).entry i j = 0) :
    scalePass C fv imdist = fv ++ nanFeatureBlock := by
  obtain ⟨hpc, hnc, hls, hrs, hrn⟩ := AGGD_zero_field (mscnField C imdist) hz
  have hgb : (AGGDfit (mscnField C imdist)).gammaBest = gamCand (numCandidates - 1) :=
    gammaBest_of_rhatnorm_none _ hrn
  have horient : ∀ di dj, orientFeatures (mscnField C imdist) (di, dj)
      = [some (gamCand (numCandidates - 1)), none, none, none] := by
    intro di dj
    have hz2 := pairProduct_zero (mscnField C imdist) hz di dj
    obtain ⟨hpc2, hnc2, hls2, hrs2, hrn2⟩ := AGGD_zero_field _ hz2
    have hgb2 : (AGGDfit (pairProduct (mscnField C imdist) di dj)).gammaBest
        = gamCand (numCandidates - 1) := gammaBest_of_rhatnorm_none _ hrn2
    simp only [orientFeatures, AGGDfit_lsigma, AGGDfit_rsigma]
    rw [hls2, hrs2, hgb2]
    simp [DR.sub_none_left, DR.mul_none_left, DR.mul_none_right]
  simp only [scalePass, shifts, List.foldl, AGGDfit_lsigma, AGGDfit_rsigma]
  rw [hls, hrs, hgb, horient 0 1, horient 1 0, horient 1 1, horient (-1) 1]
  simp [nanFeatureBlock, DR.mul_none_left, DR.add_none_left, DR.div_none_left,
    List.append_assoc]

/-- C8: for every perfectly uniform (constant-value) input image, every
AGGD fit in the pipeline — the MSCN fit and the four pairwise fits at both
scales — sees `negCount = posCount = 0` (the MSCN and product fields are
all zeros), the 0/0 divisions make both scales NaN, no exception is raised
(the computation is total and completes), and the NaN values propagate
into the feature vector, which equals two copies of the NaN block. -/
theorem C8_uniform_image_nan (C : Collab) (img : ColorImage) (c : ℕ)
    (hc : c ≤ 255) (hrows : 0 < img.rows) (hcols : 0 < img.cols)
    (hbc : blurConst C) (hrd : resizeDims C) (hrc : resizeConst C)
    (hB : ∀ i j, img.chanB i j = c) (hG : ∀ i j, img.chanG i j = c)
    (hR : ∀ i j, img.chanR i j = c) :
    (∀ s, poscount (scaleMSCN C img s) = 0 ∧ negcount (scaleMSCN C img s) = 0
      ∧ (AGGDfit (scaleMSCN C img s)).lsigma = none
      ∧ (AGGDfit (scaleMSCN C img s)).rsigma = none
      ∧ ∀ di dj : ℤ,
          poscount (pairProduct (scaleMSCN C img s) di dj) = 0
          ∧ negcount (pairProduct (scaleMSCN C img s) di dj) = 0
          ∧ (AGGDfit (pairProduct (scaleMSCN C img s) di dj)).lsigma = none
          ∧ (AGGDfit (pairProduct (scaleMSCN C img s) di dj)).rsigma = none)
    ∧ ComputeBrisqueFeature C img = nanFeatureBlock ++ nanFeatureBlock := by
  have hgray : ∀ i j, i < (grayStage img).rows → j < (grayStage img).cols →
      (grayStage img).entry i j = (c : ℝ) :=
    fun i j _ _ => grayStage_const img c hc hB hG hR i j
  have hscaled := scaledInput_const C hrd hrc (grayStage img) (c : ℝ) hrows hcols hgray
  have hmscn : ∀ s i j, i < (scaleMSCN C img s).rows → j < (scaleMSCN C img s).cols →
      (scaleMSCN C img s).entry i j = 0 := by
    intro s
    exact mscnField_const_zero C hbc (scaledInput C (grayStage img) s)
      (1 / 255 * (c : ℝ)) (hscaled s)
  constructor
  · intro s
    obtain ⟨hpc, hnc, hls, hrs, _⟩ := AGGD_zero_field (scaleMSCN C img s) (hmscn s)
    refine ⟨hpc, hnc, hls, hrs, ?_⟩
    intro di dj
    obtain ⟨hpc2, hnc2, hls2, hrs2, _⟩ :=
      AGGD_zero_field _ (pairProduct_zero (scaleMSCN C img s) (hmscn s) di dj)
    exact ⟨hpc2, hnc2, hls2, hrs2⟩
  · have hcompute : ComputeBrisqueFeature C img
        = scalePass C (scalePass C [] (scaledInput C (grayStage img) (0 + 1)))
            (scaledInput C (grayStage img) (1 + 1)) := rfl
    rw [hcompute, scalePass_nan C [] _ (hmscn (0 + 1)),
      scalePass_nan C _ _ (hmscn (1 + 1))]
    simp

theorem idCollab_blurConst : blurConst idCollab :=
  fun m c h i j hi hj => h i j hi hj

theorem idCollab_resizeDims : resizeDims idCollab :=
  fun _ _ _ => ⟨rfl, rfl⟩

theorem idCollab_resizeConst : resizeConst idCollab := by
  intro w h m c hr hc hm i j _ _
  show m.entry (min i (m.rows - 1)) (min j (m.cols - 1)) = c
  apply hm
  · exact lt_of_le_of_lt (Nat.min_le_right i (m.rows - 1)) (Nat.sub_lt hr one_pos)
  · exact lt_of_le_of_lt (Nat.min_le_right j (m.cols - 1)) (Nat.sub_lt hc one_pos)

theorem C8_uniform_image_nan_witness :
    ComputeBrisqueFeature idCollab greyImage2x2 = nanFeatureBlock ++ nanFeatureBlock :=
  (C8_uniform_image_nan idCollab greyImage2x2 7 (by norm_num) (by decide) (by decide)
    idCollab_blurConst idCollab_resizeDims idCollab_resizeConst
    (fun _ _ => rfl) (fun _ _ => rfl) (fun _ _ => rfl)).2

theorem C10_gammaBest_always_candidate_witness :
    (AGGDfit mat1x1).gammaBest = gamCand (numCandidates - 1) := by
  apply (C10_gammaBest_always_candidate mat1x1).2.2.2.2
  exact (AGGD_zero_field mat1x1 (fun i j _ _ => rfl)).2.2.2.2

end Brisque
